import Mathlib

/-!
Verification of the RAGBase chunking, normalization, quality-scoring and
chunk-merge core against its specification.

Python strings are modelled as `List Char`; Python floats are modelled as
exact rationals (`Rat`); a Python function that can raise is modelled with
`Option`.  Every definition is a direct translation of the corresponding
function in `apps/ai-worker/src/`.
-/

namespace RAGBase

/-- Python whitespace characters relevant to `str.strip` and the regex
class `\s` (the inputs considered here are ASCII, where both coincide). -/
def isPySpace (c : Char) : Bool :=
  c = ' ' ∨ c = '\t' ∨ c = '\n' ∨ c = '\r' ∨ c = '\x0b' ∨ c = '\x0c'

/-- Python `str.lstrip()`. -/
def pyLstrip (s : List Char) : List Char := s.dropWhile isPySpace

/-- Python `str.rstrip()`. -/
def pyRstrip (s : List Char) : List Char := (s.reverse.dropWhile isPySpace).reverse

/-- Python `str.strip()`. -/
def pyStrip (s : List Char) : List Char := pyLstrip (pyRstrip s)

/-- Whether `p` is a leading segment of `s` (Python `str.startswith`). -/
def beginsWith : List Char → List Char → Bool
  | [], _ => true
  | _ :: _, [] => false
  | a :: as, b :: bs => a = b && beginsWith as bs

/-- Whether `n` occurs as a contiguous segment of `h` (Python `in`). -/
def occursB (n : List Char) : List Char → Bool
  | [] => n.isEmpty
  | c :: rest => beginsWith n (c :: rest) || occursB n rest

/-- The segment `n` appears contiguously inside `h`. -/
def appearsIn (n h : List Char) : Prop := ∃ pre post, h = pre ++ n ++ post

theorem beginsWith_iff (n s : List Char) :
    beginsWith n s = true ↔ ∃ t, s = n ++ t := by
  induction n generalizing s with
  | nil => simp [beginsWith]
  | cons a as ih =>
    cases s with
    | nil => simp [beginsWith]
    | cons b bs =>
      simp only [beginsWith, Bool.and_eq_true, decide_eq_true_eq, ih, List.cons_append,
        List.cons.injEq]
      constructor
      · rintro ⟨rfl, t, rfl⟩
        exact ⟨t, rfl, rfl⟩
      · rintro ⟨t, rfl, rfl⟩
        exact ⟨rfl, t, rfl⟩

theorem occursB_iff (n h : List Char) : occursB n h = true ↔ appearsIn n h := by
  induction h with
  | nil =>
    simp only [occursB, List.isEmpty_iff, appearsIn]
    constructor
    · rintro rfl
      exact ⟨[], [], rfl⟩
    · rintro ⟨pre, post, hh⟩
      rcases List.append_eq_nil.mp hh.symm with ⟨h1, h2⟩
      exact (List.append_eq_nil.mp h1).2
  | cons c rest ih =>
    simp only [occursB, Bool.or_eq_true, beginsWith_iff, ih, appearsIn]
    constructor
    · rintro (⟨t, ht⟩ | ⟨pre, post, hh⟩)
      · exact ⟨[], t, by simpa using ht⟩
      · exact ⟨c :: pre, post, by simp [hh]⟩
    · rintro ⟨pre, post, hh⟩
      cases pre with
      | nil => exact Or.inl ⟨post, by simpa using hh⟩
      | cons d pre' =>
        right
        have h2 : c = d ∧ rest = pre' ++ n ++ post := by simpa using hh
        exact ⟨pre', post, h2.2⟩

instance (n h : List Char) : Decidable (appearsIn n h) :=
  decidable_of_iff (occursB n h = true) (occursB_iff n h)

theorem appearsIn_refl (n : List Char) : appearsIn n n := ⟨[], [], by simp⟩

theorem appearsIn_append_left (n h t : List Char) (hh : appearsIn n h) :
    appearsIn n (h ++ t) := by
  obtain ⟨pre, post, rfl⟩ := hh
  exact ⟨pre, post ++ t, by simp⟩

theorem appearsIn_append_right (n h t : List Char) (hh : appearsIn n h) :
    appearsIn n (t ++ h) := by
  obtain ⟨pre, post, rfl⟩ := hh
  exact ⟨t ++ pre, post, by simp⟩

/-- Python `s.split("\n")`. -/
def splitLinesNL : List Char → List (List Char)
  | [] => [[]]
  | c :: rest =>
    if c = '\n' then [] :: splitLinesNL rest
    else
      match splitLinesNL rest with
      | [] => [[c]]
      | l :: ls => (c :: l) :: ls

/-- Python `"\n".join(lines)`. -/
def joinNL : List (List Char) → List Char
  | [] => []
  | [l] => l
  | l :: ls => l ++ '\n' :: joinNL ls

theorem splitLinesNL_ne_nil (s : List Char) : splitLinesNL s ≠ [] := by
  cases s with
  | nil => simp [splitLinesNL]
  | cons c rest =>
    simp only [splitLinesNL]
    split
    · simp
    · split
      · simp
      · simp

theorem joinNL_cons (l : List Char) (ls : List (List Char)) (h : ls ≠ []) :
    joinNL (l :: ls) = l ++ '\n' :: joinNL ls := by
  cases ls with
  | nil => exact absurd rfl h
  | cons a as => rfl

theorem joinNL_splitLinesNL (s : List Char) : joinNL (splitLinesNL s) = s := by
  induction s with
  | nil => rfl
  | cons c rest ih =>
    by_cases hc : c = '\n'
    · subst hc
      rw [show splitLinesNL ('\n' :: rest) = [] :: splitLinesNL rest from rfl,
        joinNL_cons _ _ (splitLinesNL_ne_nil rest), ih]
      rfl
    · have hspl : splitLinesNL (c :: rest) =
          match splitLinesNL rest with
          | [] => [[c]]
          | l :: ls => (c :: l) :: ls := by
        simp [splitLinesNL, hc]
      cases hsp : splitLinesNL rest with
      | nil => exact absurd hsp (splitLinesNL_ne_nil rest)
      | cons l ls =>
        rw [hsp] at ih hspl
        cases ls with
        | nil =>
          rw [hspl]
          simpa [joinNL] using congrArg (c :: ·) ih
        | cons l2 ls2 =>
          rw [hspl, joinNL_cons _ _ (by simp)]
          rw [joinNL_cons _ _ (by simp)] at ih
          simpa using congrArg (c :: ·) ih

/-!
## Chunk merging (`apps/ai-worker/src/pipeline.py`, `ProcessingPipeline`)

A chunk is a dict `{"content": str, "metadata": dict}`.  The metadata dict
is modelled as the distinguished key `"index"` (written by the re-index
pass) together with an abstract value `rest` standing for all other keys
(`breadcrumbs`, `location`, ...).  The literal default dict
`{"breadcrumbs": []}` corresponds to a distinguished `rest` value `dflt`
and no `"index"` key.
-/

/-- Metadata dict: the `"index"` key plus all remaining keys. -/
structure MergeMeta (ρ : Type) where
  index : Option Nat
  rest : ρ
  deriving DecidableEq, Repr

/-- A chunk dict with `content` and `metadata` keys. -/
structure MChunk (ρ : Type) where
  content : List Char
  metadata : MergeMeta ρ
  deriving DecidableEq, Repr

/-- The separator `"\n\n"` used by every merge concatenation. -/
def blankSep : List Char := '\n' :: '\n' :: []

/-- Models `ProcessingPipeline._strip_breadcrumb_prefix`: drop a leading quote
line (a first line starting with `>`) and the blank lines following it. -/
def strip_breadcrumb (content : List Char) : List Char :=
  match splitLinesNL content with
  | [] => content
  | l0 :: restLines =>
    if l0.head? = some '>' then
      joinNL (restLines.dropWhile (fun l => pyStrip l = []))
    else content

/-- Loop state of `merge_small_chunks`: the emitted list, the accumulator
string and the accumulator metadata. -/
structure MergeState (ρ : Type) where
  result : List (MChunk ρ)
  accContent : List Char
  accMeta : Option (MergeMeta ρ)
  deriving Repr

variable {ρ : Type}

/-- The dict literal `{"breadcrumbs": []}` used when the accumulator has no
metadata (`acc_metadata or {"breadcrumbs": []}`). -/
def orDefault (dflt : ρ) (m : Option (MergeMeta ρ)) : MergeMeta ρ :=
  m.getD ⟨none, dflt⟩

/-- Content length of `result[-1]` (only consulted when `result` is
nonempty). -/
def lastLen (res : List (MChunk ρ)) : Nat :=
  match res.getLast? with
  | some c => c.content.length
  | none => 0

/-- Models `result[-1]["content"] += extra`, leaving every other element alone. -/
def appendToLast (extra : List Char) : List (MChunk ρ) → List (MChunk ρ)
  | [] => []
  | [c] => [⟨c.content ++ extra, c.metadata⟩]
  | c :: rest => c :: appendToLast extra rest

/-- The accumulator-flush block that `merge_small_chunks` repeats three
times (normal-chunk case, overflow case, leftover case): emit the
accumulator on its own if it reached `min_chars`; otherwise append it to
the previously emitted chunk when that stays within `max_chars`; otherwise
emit it standalone undersized. -/
def flush_acc (dflt : ρ) (minChars maxChars : Nat) (res : List (MChunk ρ))
    (acc : List Char) (accMeta : Option (MergeMeta ρ)) : List (MChunk ρ) :=
  if minChars ≤ acc.length then
    res ++ [⟨acc, orDefault dflt accMeta⟩]
  else if res.isEmpty then
    res ++ [⟨acc, orDefault dflt accMeta⟩]
  else if lastLen res + 2 + acc.length ≤ maxChars then
    appendToLast (blankSep ++ acc) res
  else
    res ++ [⟨acc, orDefault dflt accMeta⟩]

/-- The trailing check of the small-chunk case: once the accumulator
reaches `min_chars` it is flushed immediately as a completed chunk. -/
def acc_check (dflt : ρ) (minChars : Nat) (st : MergeState ρ) : MergeState ρ :=
  if minChars ≤ st.accContent.length then
    ⟨st.result ++ [⟨st.accContent, orDefault dflt st.accMeta⟩], [], none⟩
  else st

/-- One iteration of the `for chunk in chunks` loop of
`merge_small_chunks`. -/
def merge_step (dflt : ρ) (minChars maxChars : Nat) (st : MergeState ρ)
    (chunk : MChunk ρ) : MergeState ρ :=
  let content := chunk.content
  if minChars ≤ content.length then
    -- Case 1: normal-sized chunk
    if 0 < st.accContent.length then
      if st.accContent.length + 2 + content.length ≤ maxChars then
        ⟨st.result ++ [⟨st.accContent ++ blankSep ++ content, chunk.metadata⟩], [], none⟩
      else
        ⟨flush_acc dflt minChars maxChars st.result st.accContent st.accMeta ++ [chunk],
          [], none⟩
    else
      ⟨st.result ++ [chunk], [], none⟩
  else
    -- Case 2: small chunk, accumulate
    let stripped := strip_breadcrumb content
    if pyStrip stripped = [] then st
    else if st.accContent.length = 0 then
      acc_check dflt minChars ⟨st.result, stripped, some chunk.metadata⟩
    else if st.accContent.length + 2 + stripped.length ≤ maxChars then
      acc_check dflt minChars
        ⟨st.result, st.accContent ++ blankSep ++ stripped, st.accMeta⟩
    else
      acc_check dflt minChars
        ⟨flush_acc dflt minChars maxChars st.result st.accContent st.accMeta,
          stripped, some chunk.metadata⟩

/-- The `for i, chunk in enumerate(result)` re-index pass. -/
def reindexFrom (k : Nat) : List (MChunk ρ) → List (MChunk ρ)
  | [] => []
  | c :: rest => ⟨c.content, ⟨some k, c.metadata.rest⟩⟩ :: reindexFrom (k + 1) rest

/-- The loop of `merge_small_chunks` followed by the leftover-accumulator
flush (`if acc_content:`), before re-indexing. -/
def merge_core (dflt : ρ) (chunks : List (MChunk ρ))
    (minChars maxChars : Nat) : List (MChunk ρ) :=
  let final := chunks.foldl (merge_step dflt minChars maxChars) ⟨[], [], none⟩
  if final.accContent ≠ [] then
    flush_acc dflt minChars maxChars final.result final.accContent final.accMeta
  else final.result

/-- Models `ProcessingPipeline.merge_small_chunks`. -/
def merge_small_chunks (dflt : ρ) (chunks : List (MChunk ρ))
    (minChars maxChars : Nat) : List (MChunk ρ) :=
  if chunks.length ≤ 1 then chunks
  else reindexFrom 0 (merge_core dflt chunks minChars maxChars)

/-! ### Helper lemmas about the merge embedding -/

theorem appendToLast_concat (res : List (MChunk ρ)) (c : MChunk ρ) (extra : List Char) :
    appendToLast extra (res ++ [c]) = res ++ [⟨c.content ++ extra, c.metadata⟩] := by
  induction res with
  | nil => rfl
  | cons r rs ih =>
    cases rs with
    | nil => rfl
    | cons r2 rs2 =>
      have hstep : appendToLast extra ((r :: r2 :: rs2) ++ [c]) =
          r :: appendToLast extra ((r2 :: rs2) ++ [c]) := rfl
      rw [hstep, ih]
      rfl

theorem lastLen_concat (res : List (MChunk ρ)) (c : MChunk ρ) :
    lastLen (res ++ [c]) = c.content.length := by
  simp [lastLen, List.getLast?_concat]

theorem joinNL_dropWhile_pre (p : List Char → Bool) (ls : List (List Char)) :
    ∃ pre, joinNL ls = pre ++ joinNL (ls.dropWhile p) := by
  induction ls with
  | nil => exact ⟨[], rfl⟩
  | cons l ls ih =>
    by_cases hl : p l
    · rw [List.dropWhile_cons_of_pos hl]
      cases ls with
      | nil => exact ⟨l, by simp [joinNL]⟩
      | cons l2 ls2 =>
        obtain ⟨pre', hpre'⟩ := ih
        refine ⟨l ++ '\n' :: pre', ?_⟩
        rw [joinNL_cons _ _ (by simp), hpre']
        simp
    · rw [List.dropWhile_cons_of_neg hl]
      exact ⟨[], rfl⟩

theorem strip_breadcrumb_reduce (c l0 : List Char) (restLines : List (List Char))
    (hsp : splitLinesNL c = l0 :: restLines) :
    strip_breadcrumb c =
      if l0.head? = some '>' then
        joinNL (restLines.dropWhile (fun l => pyStrip l = []))
      else c := by
  unfold strip_breadcrumb
  rw [hsp]

theorem strip_breadcrumb_pre (c : List Char) :
    ∃ pre, c = pre ++ strip_breadcrumb c := by
  cases hsp : splitLinesNL c with
  | nil => exact absurd hsp (splitLinesNL_ne_nil c)
  | cons l0 restLines =>
    rw [strip_breadcrumb_reduce c l0 restLines hsp]
    by_cases hq : l0.head? = some '>'
    · rw [if_pos hq]
      have hc : c = joinNL (l0 :: restLines) := by
        rw [← hsp, joinNL_splitLinesNL]
      cases restLines with
      | nil => exact ⟨c, by simp [joinNL]⟩
      | cons r rs =>
        obtain ⟨pre', hpre'⟩ := joinNL_dropWhile_pre (fun l => pyStrip l = []) (r :: rs)
        refine ⟨l0 ++ '\n' :: pre', ?_⟩
        rw [hc, joinNL_cons _ _ (by simp), hpre']
        simp
    · rw [if_neg hq]
      exact ⟨[], rfl⟩

theorem strip_breadcrumb_length_le (c : List Char) :
    (strip_breadcrumb c).length ≤ c.length := by
  obtain ⟨pre, hpre⟩ := strip_breadcrumb_pre c
  have h := congrArg List.length hpre
  rw [List.length_append] at h
  omega

theorem appearsIn_strip_breadcrumb (c : List Char) :
    appearsIn (strip_breadcrumb c) c := by
  obtain ⟨pre, hpre⟩ := strip_breadcrumb_pre c
  exact ⟨pre, [], by simpa using hpre⟩

theorem mem_reindexFrom {c : MChunk ρ} :
    ∀ (l : List (MChunk ρ)) (k : Nat), c ∈ reindexFrom k l →
      ∃ c' ∈ l, c.content = c'.content := by
  intro l
  induction l with
  | nil => intro k h; simp [reindexFrom] at h
  | cons x xs ih =>
    intro k h
    simp only [reindexFrom, List.mem_cons] at h
    rcases h with h | h
    · exact ⟨x, List.mem_cons_self _ _, by rw [h]⟩
    · obtain ⟨c', hc', hcc⟩ := ih (k + 1) h
      exact ⟨c', List.mem_cons_of_mem _ hc', hcc⟩

theorem reindexFrom_idx :
    ∀ (l : List (MChunk ρ)) (k i : Nat) (c : MChunk ρ),
      (reindexFrom k l)[i]? = some c → c.metadata.index = some (k + i) := by
  intro l
  induction l with
  | nil => intro k i c h; simp [reindexFrom] at h
  | cons x xs ih =>
    intro k i c h
    cases i with
    | zero =>
      simp only [reindexFrom, List.getElem?_cons_zero, Option.some.injEq] at h
      rw [← h]
      simp
    | succ j =>
      simp only [reindexFrom, List.getElem?_cons_succ] at h
      have := ih (k + 1) j c h
      rw [this]
      congr 1
      omega

/-! ### The size ceiling of the merger -/

/-- The chunk is a verbatim pass-through of an input chunk that already
exceeded `maxChars` before merging. -/
def Oversized (origin : List (MChunk ρ)) (maxChars : Nat) (c : MChunk ρ) : Prop :=
  ∃ c₀ ∈ origin, c₀.content = c.content ∧ maxChars < c₀.content.length

/-- Every emitted chunk respects `maxChars` unless it is an unchanged
oversized input chunk. -/
def CeilOk (origin : List (MChunk ρ)) (maxChars : Nat) (c : MChunk ρ) : Prop :=
  c.content.length ≤ maxChars ∨ Oversized origin maxChars c

theorem CeilOk.mono {origin tail : List (MChunk ρ)} {maxChars : Nat} {c : MChunk ρ}
    (h : CeilOk origin maxChars c) : CeilOk (origin ++ tail) maxChars c := by
  rcases h with h | ⟨c₀, hmem, hcc, hlen⟩
  · exact Or.inl h
  · exact Or.inr ⟨c₀, List.mem_append_left _ hmem, hcc, hlen⟩

theorem CeilOk.of_content {origin : List (MChunk ρ)} {maxChars : Nat} {c c' : MChunk ρ}
    (hcc : c.content = c'.content) (h : CeilOk origin maxChars c') :
    CeilOk origin maxChars c := by
  rcases h with h | ⟨c₀, hmem, hc₀, hlen⟩
  · exact Or.inl (hcc ▸ h)
  · exact Or.inr ⟨c₀, hmem, hcc ▸ hc₀, hlen⟩

theorem CeilOk.self (origin : List (MChunk ρ)) (maxChars : Nat) {c : MChunk ρ}
    (hmem : c ∈ origin) : CeilOk origin maxChars c := by
  by_cases h : c.content.length ≤ maxChars
  · exact Or.inl h
  · exact Or.inr ⟨c, hmem, rfl, by omega⟩

/-- Loop invariant for the ceiling: emitted chunks are within `maxChars`
or oversized pass-throughs, and the accumulator stays below `minChars`. -/
def InvCeil (minChars maxChars : Nat) (origin : List (MChunk ρ)) (st : MergeState ρ) : Prop :=
  (∀ c ∈ st.result, CeilOk origin maxChars c) ∧
    (st.accContent = [] ∨ st.accContent.length < minChars)

theorem flush_acc_ceil {dflt : ρ} {minChars maxChars : Nat} {origin res : List (MChunk ρ)}
    {acc : List Char} {am : Option (MergeMeta ρ)}
    (hmm : minChars ≤ maxChars) (hacc : acc.length < minChars)
    (hres : ∀ c ∈ res, CeilOk origin maxChars c) :
    ∀ c ∈ flush_acc dflt minChars maxChars res acc am, CeilOk origin maxChars c := by
  unfold flush_acc
  rw [if_neg (by omega)]
  cases res with
  | nil =>
    rw [if_pos (by simp)]
    intro c hc
    simp only [List.nil_append, List.mem_singleton] at hc
    subst hc
    exact Or.inl (by simp; omega)
  | cons r rs =>
    rw [if_neg (by simp)]
    by_cases hfit : lastLen (r :: rs) + 2 + acc.length ≤ maxChars
    · rw [if_pos hfit]
      obtain ⟨res', b, hsplit⟩ :=
        (List.eq_nil_or_concat (r :: rs)).resolve_left (by simp)
      rw [List.concat_eq_append] at hsplit
      rw [hsplit, appendToLast_concat]
      intro c hc
      rcases List.mem_append.mp hc with hc | hc
      · exact hres c (hsplit ▸ List.mem_append_left _ hc)
      · rw [List.mem_singleton] at hc
        subst hc
        refine Or.inl ?_
        have hblen : lastLen (r :: rs) = b.content.length := by
          rw [hsplit, lastLen_concat]
        simp only [List.length_append, blankSep, List.length_cons, List.length_nil]
        omega
    · rw [if_neg hfit]
      intro c hc
      rcases List.mem_append.mp hc with hc | hc
      · exact hres c hc
      · rw [List.mem_singleton] at hc
        subst hc
        exact Or.inl (by simp; omega)

theorem merge_step_ceil {dflt : ρ} {minChars maxChars : Nat} {origin : List (MChunk ρ)}
    {st : MergeState ρ} (x : MChunk ρ) (hmm : minChars ≤ maxChars)
    (hinv : InvCeil minChars maxChars origin st) :
    InvCeil minChars maxChars (origin ++ [x]) (merge_step dflt minChars maxChars st x) := by
  obtain ⟨hres, haccinv⟩ := hinv
  have hres' : ∀ c ∈ st.result, CeilOk (origin ++ [x]) maxChars c :=
    fun c hc => (hres c hc).mono
  have hxok : CeilOk (origin ++ [x]) maxChars x :=
    CeilOk.self _ _ (List.mem_append_right _ (List.mem_singleton.mpr rfl))
  unfold merge_step
  by_cases hbig : minChars ≤ x.content.length
  · rw [if_pos hbig]
    by_cases haccpos : 0 < st.accContent.length
    · rw [if_pos haccpos]
      have haccsm : st.accContent.length < minChars := by
        rcases haccinv with h | h
        · rw [h] at haccpos; simp at haccpos
        · exact h
      by_cases hfit : st.accContent.length + 2 + x.content.length ≤ maxChars
      · rw [if_pos hfit]
        refine ⟨?_, Or.inl rfl⟩
        intro c hc
        rcases List.mem_append.mp hc with hc | hc
        · exact hres' c hc
        · rw [List.mem_singleton] at hc
          subst hc
          refine Or.inl ?_
          simp only [List.length_append, blankSep, List.length_cons, List.length_nil]
          omega
      · rw [if_neg hfit]
        refine ⟨?_, Or.inl rfl⟩
        intro c hc
        rcases List.mem_append.mp hc with hc | hc
        · exact flush_acc_ceil hmm haccsm hres' c hc
        · rw [List.mem_singleton] at hc
          subst hc
          exact hxok
    · rw [if_neg haccpos]
      refine ⟨?_, Or.inl rfl⟩
      intro c hc
      rcases List.mem_append.mp hc with hc | hc
      · exact hres' c hc
      · rw [List.mem_singleton] at hc
        subst hc
        exact hxok
  · rw [if_neg hbig]
    have hstriplen : (strip_breadcrumb x.content).length < minChars :=
      lt_of_le_of_lt (strip_breadcrumb_length_le x.content) (by omega)
    by_cases hblank : pyStrip (strip_breadcrumb x.content) = []
    · rw [if_pos hblank]
      exact ⟨hres', by rcases haccinv with h | h; exact Or.inl h; exact Or.inr h⟩
    · rw [if_neg hblank]
      by_cases haccz : st.accContent.length = 0
      · rw [if_pos haccz]
        unfold acc_check
        rw [if_neg (by simp; omega)]
        exact ⟨hres', Or.inr hstriplen⟩
      · rw [if_neg haccz]
        have haccsm : st.accContent.length < minChars := by
          rcases haccinv with h | h
          · rw [h] at haccz; simp at haccz
          · exact h
        by_cases hfit : st.accContent.length + 2 + (strip_breadcrumb x.content).length ≤ maxChars
        · rw [if_pos hfit]
          unfold acc_check
          by_cases hgrown :
              minChars ≤ (st.accContent ++ blankSep ++ strip_breadcrumb x.content).length
          · rw [if_pos hgrown]
            refine ⟨?_, Or.inl rfl⟩
            intro c hc
            rcases List.mem_append.mp hc with hc | hc
            · exact hres' c hc
            · rw [List.mem_singleton] at hc
              subst hc
              refine Or.inl ?_
              simp only [List.length_append, blankSep, List.length_cons, List.length_nil]
              omega
          · rw [if_neg hgrown]
            refine ⟨hres', Or.inr ?_⟩
            simpa using (by omega : ¬ minChars ≤
              (st.accContent ++ blankSep ++ strip_breadcrumb x.content).length → (st.accContent ++ blankSep ++ strip_breadcrumb x.content).length < minChars) hgrown
        · rw [if_neg hfit]
          unfold acc_check
          rw [if_neg (by simp; omega)]
          exact ⟨flush_acc_ceil hmm haccsm hres', Or.inr hstriplen⟩

theorem fold_ceil {dflt : ρ} {minChars maxChars : Nat} (hmm : minChars ≤ maxChars) :
    ∀ (l : List (MChunk ρ)) (origin : List (MChunk ρ)) (st : MergeState ρ),
      InvCeil minChars maxChars origin st →
      InvCeil minChars maxChars (origin ++ l)
        (l.foldl (merge_step dflt minChars maxChars) st) := by
  intro l
  induction l with
  | nil => intro origin st h; simpa using h
  | cons x xs ih =>
    intro origin st h
    have hstep := @merge_step_ceil ρ dflt minChars maxChars origin st x hmm h
    have := ih (origin ++ [x]) _ hstep
    simpa [List.append_assoc] using this

theorem merge_core_ceil {dflt : ρ} {chunks : List (MChunk ρ)} {minChars maxChars : Nat}
    (hmm : minChars ≤ maxChars) :
    ∀ c ∈ merge_core dflt chunks minChars maxChars, CeilOk chunks maxChars c := by
  have h0 : InvCeil minChars maxChars [] (⟨[], [], none⟩ : MergeState ρ) :=
    ⟨by simp, Or.inl rfl⟩
  have hInv : InvCeil minChars maxChars chunks
      (chunks.foldl (merge_step dflt minChars maxChars) ⟨[], [], none⟩) := by
    simpa using fold_ceil hmm chunks [] _ h0
  unfold merge_core
  by_cases hne :
      (chunks.foldl (merge_step dflt minChars maxChars) ⟨[], [], none⟩).accContent ≠ []
  · rw [if_pos hne]
    have haccsm :
        (chunks.foldl (merge_step dflt minChars maxChars) ⟨[], [], none⟩).accContent.length
          < minChars := by
      rcases hInv.2 with h | h
      · exact absurd h hne
      · exact h
    exact flush_acc_ceil hmm haccsm hInv.1
  · rw [if_neg hne]
    exact hInv.1

/-- C2: for every input fragment list and every `minChars ≤ maxChars`,
every fragment emitted by `merge_small_chunks` has content length at most
`maxChars`, except a fragment whose content is the unchanged content of an
input fragment that already exceeded `maxChars` before merging (such an
oversized fragment is passed through neither grown nor shrunk). -/
theorem merge_small_chunks_ceiling {ρ : Type} (dflt : ρ) (chunks : List (MChunk ρ))
    (minChars maxChars : Nat) (hmm : minChars ≤ maxChars) (c : MChunk ρ)
    (hc : c ∈ merge_small_chunks dflt chunks minChars maxChars) :
    c.content.length ≤ maxChars ∨
      ∃ c₀ ∈ chunks, c₀.content = c.content ∧ maxChars < c₀.content.length := by
  unfold merge_small_chunks at hc
  by_cases hlen : chunks.length ≤ 1
  · rw [if_pos hlen] at hc
    have h := CeilOk.self chunks maxChars hc
    unfold CeilOk Oversized at h
    exact h
  · rw [if_neg hlen] at hc
    obtain ⟨c', hc', hcc⟩ := mem_reindexFrom _ 0 hc
    have h := CeilOk.of_content hcc (merge_core_ceil hmm c' hc')
    unfold CeilOk Oversized at h
    exact h

/-- Witness for C2 at a concrete input: an oversized 90-character chunk is
passed through a `minChars = 50`, `maxChars = 80` merge and is covered by
the oversized-pass-through disjunct. -/
theorem merge_small_chunks_ceiling_witness :
    (⟨List.replicate 90 'a', ⟨some 1, 1⟩⟩ : MChunk Nat).content.length ≤ 80 ∨
      ∃ c₀ ∈ [(⟨"Hi.".toList, ⟨some 0, 0⟩⟩ : MChunk Nat),
          ⟨List.replicate 90 'a', ⟨some 1, 1⟩⟩],
        c₀.content = (⟨List.replicate 90 'a', ⟨some 1, 1⟩⟩ : MChunk Nat).content ∧
          80 < c₀.content.length :=
  merge_small_chunks_ceiling (0 : Nat)
    [⟨"Hi.".toList, ⟨some 0, 0⟩⟩, ⟨List.replicate 90 'a', ⟨some 1, 1⟩⟩] 50 80
    (by norm_num) ⟨List.replicate 90 'a', ⟨some 1, 1⟩⟩ (by decide)

/-! ### Content preservation of the merger -/

/-- The part of a fragment content the merger is expected to keep: the
full content for a normal-sized fragment, the breadcrumb-stripped content
for an undersized one. -/
def mergeKey (minChars : Nat) (c : MChunk ρ) : List Char :=
  if minChars ≤ c.content.length then c.content else strip_breadcrumb c.content

/-- The fragment is not skipped by the merger: it is normal-sized, or its
breadcrumb-stripped content is not blank. -/
def MergeNonBlank (minChars : Nat) (c : MChunk ρ) : Prop :=
  minChars ≤ c.content.length ∨ pyStrip (strip_breadcrumb c.content) ≠ []

/-- The segment `t` survives in the loop state: inside an emitted chunk or
inside the (nonempty) accumulator. -/
def Kept (t : List Char) (st : MergeState ρ) : Prop :=
  (∃ c ∈ st.result, appearsIn t c.content) ∨
    (appearsIn t st.accContent ∧ st.accContent ≠ [])

theorem flush_acc_keep {dflt : ρ} {minChars maxChars : Nat} {res : List (MChunk ρ)}
    {acc : List Char} {am : Option (MergeMeta ρ)} {t : List Char}
    (h : (∃ c ∈ res, appearsIn t c.content) ∨ appearsIn t acc) :
    ∃ c ∈ flush_acc dflt minChars maxChars res acc am, appearsIn t c.content := by
  unfold flush_acc
  by_cases h1 : minChars ≤ acc.length
  · rw [if_pos h1]
    rcases h with ⟨c, hc, hap⟩ | hap
    · exact ⟨c, List.mem_append_left _ hc, hap⟩
    · exact ⟨⟨acc, orDefault dflt am⟩, List.mem_append_right _ (by simp), hap⟩
  · rw [if_neg h1]
    cases res with
    | nil =>
      rw [if_pos (by simp)]
      rcases h with ⟨c, hc, _⟩ | hap
      · simp at hc
      · exact ⟨⟨acc, orDefault dflt am⟩, by simp, hap⟩
    | cons r rs =>
      rw [if_neg (by simp)]
      by_cases hfit : lastLen (r :: rs) + 2 + acc.length ≤ maxChars
      · rw [if_pos hfit]
        obtain ⟨res', b, hsplit⟩ :=
          (List.eq_nil_or_concat (r :: rs)).resolve_left (by simp)
        rw [List.concat_eq_append] at hsplit
        rw [hsplit, appendToLast_concat]
        rcases h with ⟨c, hc, hap⟩ | hap
        · rw [hsplit] at hc
          rcases List.mem_append.mp hc with hc | hc
          · exact ⟨c, List.mem_append_left _ hc, hap⟩
          · rw [List.mem_singleton] at hc
            subst hc
            refine ⟨⟨c.content ++ (blankSep ++ acc), c.metadata⟩,
              List.mem_append_right _ (by simp), ?_⟩
            exact appearsIn_append_left _ _ _ hap
        · refine ⟨⟨b.content ++ (blankSep ++ acc), b.metadata⟩,
            List.mem_append_right _ (by simp), ?_⟩
          exact appearsIn_append_right _ _ _ (appearsIn_append_right _ _ _ hap)
      · rw [if_neg hfit]
        rcases h with ⟨c, hc, hap⟩ | hap
        · exact ⟨c, List.mem_append_left _ hc, hap⟩
        · exact ⟨⟨acc, orDefault dflt am⟩, List.mem_append_right _ (by simp), hap⟩

theorem acc_check_keep {dflt : ρ} {minChars : Nat} {st : MergeState ρ} {t : List Char}
    (h : Kept t st) : Kept t (acc_check dflt minChars st) := by
  unfold acc_check
  by_cases h1 : minChars ≤ st.accContent.length
  · rw [if_pos h1]
    rcases h with ⟨c, hc, hap⟩ | ⟨hap, _⟩
    · exact Or.inl ⟨c, List.mem_append_left _ hc, hap⟩
    · exact Or.inl ⟨⟨st.accContent, orDefault dflt st.accMeta⟩,
        List.mem_append_right _ (by simp), hap⟩
  · rw [if_neg h1]
    exact h

theorem merge_step_kept {dflt : ρ} {minChars maxChars : Nat} {st : MergeState ρ}
    {t : List Char} (x : MChunk ρ) (h : Kept t st) :
    Kept t (merge_step dflt minChars maxChars st x) := by
  unfold merge_step
  by_cases hbig : minChars ≤ x.content.length
  · rw [if_pos hbig]
    by_cases haccpos : 0 < st.accContent.length
    · rw [if_pos haccpos]
      by_cases hfit : st.accContent.length + 2 + x.content.length ≤ maxChars
      · rw [if_pos hfit]
        rcases h with ⟨c, hc, hap⟩ | ⟨hap, _⟩
        · exact Or.inl ⟨c, List.mem_append_left _ hc, hap⟩
        · refine Or.inl ⟨⟨st.accContent ++ blankSep ++ x.content, x.metadata⟩,
            List.mem_append_right _ (by simp), ?_⟩
          rw [List.append_assoc]
          exact appearsIn_append_left _ _ _ hap
      · rw [if_neg hfit]
        have hflush : ∃ c ∈ flush_acc dflt minChars maxChars st.result st.accContent st.accMeta,
            appearsIn t c.content := by
          apply flush_acc_keep
          rcases h with ⟨c, hc, hap⟩ | ⟨hap, _⟩
          · exact Or.inl ⟨c, hc, hap⟩
          · exact Or.inr hap
        obtain ⟨c, hc, hap⟩ := hflush
        exact Or.inl ⟨c, List.mem_append_left _ hc, hap⟩
    · rw [if_neg haccpos]
      rcases h with ⟨c, hc, hap⟩ | ⟨_, hne⟩
      · exact Or.inl ⟨c, List.mem_append_left _ hc, hap⟩
      · exact absurd (List.length_eq_zero.mp (by omega)) hne
  · rw [if_neg hbig]
    by_cases hblank : pyStrip (strip_breadcrumb x.content) = []
    · rw [if_pos hblank]
      exact h
    · rw [if_neg hblank]
      by_cases haccz : st.accContent.length = 0
      · rw [if_pos haccz]
        apply acc_check_keep
        rcases h with ⟨c, hc, hap⟩ | ⟨_, hne⟩
        · exact Or.inl ⟨c, hc, hap⟩
        · exact absurd (List.length_eq_zero.mp haccz) hne
      · rw [if_neg haccz]
        by_cases hfit :
            st.accContent.length + 2 + (strip_breadcrumb x.content).length ≤ maxChars
        · rw [if_pos hfit]
          apply acc_check_keep
          rcases h with ⟨c, hc, hap⟩ | ⟨hap, _⟩
          · exact Or.inl ⟨c, hc, hap⟩
          · refine Or.inr ⟨?_, by simp [blankSep]⟩
            rw [List.append_assoc]
            exact appearsIn_append_left _ _ _ hap
        · rw [if_neg hfit]
          apply acc_check_keep
          have hflush : ∃ c ∈ flush_acc dflt minChars maxChars st.result st.accContent st.accMeta,
              appearsIn t c.content := by
            apply flush_acc_keep
            rcases h with ⟨c, hc, hap⟩ | ⟨hap, _⟩
            · exact Or.inl ⟨c, hc, hap⟩
            · exact Or.inr hap
          exact Or.inl hflush

theorem merge_step_kept_self {dflt : ρ} {minChars maxChars : Nat} {st : MergeState ρ}
    (x : MChunk ρ) (hnb : MergeNonBlank minChars x) :
    Kept (mergeKey minChars x) (merge_step dflt minChars maxChars st x) := by
  unfold merge_step
  by_cases hbig : minChars ≤ x.content.length
  · have hkey : mergeKey minChars x = x.content := if_pos hbig
    rw [if_pos hbig, hkey]
    by_cases haccpos : 0 < st.accContent.length
    · rw [if_pos haccpos]
      by_cases hfit : st.accContent.length + 2 + x.content.length ≤ maxChars
      · rw [if_pos hfit]
        refine Or.inl ⟨⟨st.accContent ++ blankSep ++ x.content, x.metadata⟩,
          List.mem_append_right _ (by simp), ?_⟩
        exact appearsIn_append_right _ _ _ (appearsIn_refl _)
      · rw [if_neg hfit]
        exact Or.inl ⟨x, List.mem_append_right _ (by simp), appearsIn_refl _⟩
    · rw [if_neg haccpos]
      exact Or.inl ⟨x, List.mem_append_right _ (by simp), appearsIn_refl _⟩
  · have hkey : mergeKey minChars x = strip_breadcrumb x.content := if_neg hbig
    rw [if_neg hbig, hkey]
    have hblank : ¬ pyStrip (strip_breadcrumb x.content) = [] := by
      rcases hnb with h | h
      · exact absurd h hbig
      · exact h
    have hne : strip_breadcrumb x.content ≠ [] := by
      intro he
      rw [he] at hblank
      exact hblank rfl
    rw [if_neg hblank]
    by_cases haccz : st.accContent.length = 0
    · rw [if_pos haccz]
      exact acc_check_keep (Or.inr ⟨appearsIn_refl _, hne⟩)
    · rw [if_neg haccz]
      by_cases hfit :
          st.accContent.length + 2 + (strip_breadcrumb x.content).length ≤ maxChars
      · rw [if_pos hfit]
        apply acc_check_keep
        refine Or.inr ⟨appearsIn_append_right _ _ _ (appearsIn_refl _), ?_⟩
        simp [blankSep]
      · rw [if_neg hfit]
        exact acc_check_keep (Or.inr ⟨appearsIn_refl _, hne⟩)

theorem mem_reindexFrom_of_mem {c : MChunk ρ} :
    ∀ (l : List (MChunk ρ)) (k : Nat), c ∈ l →
      ∃ c' ∈ reindexFrom k l, c'.content = c.content := by
  intro l
  induction l with
  | nil => intro k h; simp at h
  | cons x xs ih =>
    intro k h
    rcases List.mem_cons.mp h with h | h
    · subst h
      exact ⟨⟨c.content, ⟨some k, c.metadata.rest⟩⟩, List.mem_cons_self _ _, rfl⟩
    · obtain ⟨c', hc', hcc⟩ := ih (k + 1) h
      exact ⟨c', List.mem_cons_of_mem _ hc', hcc⟩

theorem fold_keep {dflt : ρ} {minChars maxChars : Nat} {t : List Char} :
    ∀ (l : List (MChunk ρ)) (st : MergeState ρ), Kept t st →
      Kept t (l.foldl (merge_step dflt minChars maxChars) st) := by
  intro l
  induction l with
  | nil => intro st h; exact h
  | cons x xs ih => intro st h; exact ih _ (merge_step_kept x h)

theorem fold_keep_self {dflt : ρ} {minChars maxChars : Nat} {c₀ : MChunk ρ}
    (hnb : MergeNonBlank minChars c₀) :
    ∀ (l : List (MChunk ρ)) (st : MergeState ρ), c₀ ∈ l →
      Kept (mergeKey minChars c₀) (l.foldl (merge_step dflt minChars maxChars) st) := by
  intro l
  induction l with
  | nil => intro st h; simp at h
  | cons x xs ih =>
    intro st h
    rcases List.mem_cons.mp h with h | h
    · subst h
      exact fold_keep xs _ (merge_step_kept_self _ hnb)
    · exact ih _ h

theorem merge_core_keep {dflt : ρ} {chunks : List (MChunk ρ)} {minChars maxChars : Nat}
    {c₀ : MChunk ρ} (h₀ : c₀ ∈ chunks) (hnb : MergeNonBlank minChars c₀) :
    ∃ c ∈ merge_core dflt chunks minChars maxChars,
      appearsIn (mergeKey minChars c₀) c.content := by
  have hkept := @fold_keep_self ρ dflt minChars maxChars c₀ hnb chunks ⟨[], [], none⟩ h₀
  unfold merge_core
  by_cases hne :
      (chunks.foldl (merge_step dflt minChars maxChars) ⟨[], [], none⟩).accContent ≠ []
  · rw [if_pos hne]
    apply flush_acc_keep
    rcases hkept with ⟨c, hc, hap⟩ | ⟨hap, _⟩
    · exact Or.inl ⟨c, hc, hap⟩
    · exact Or.inr hap
  · rw [if_neg hne]
    rcases hkept with ⟨c, hc, hap⟩ | ⟨_, hne'⟩
    · exact ⟨c, hc, hap⟩
    · exact absurd (not_not.mp hne) hne'

/-- C3 (amended): the merger keeps the breadcrumb-stripped content of
every fragment that is not blank after stripping; a normal-sized fragment
keeps its full content.  (The original claim fails for an undersized
fragment that is blank after stripping: such a fragment is silently
dropped, see the counterexample.) -/
theorem merge_small_chunks_keeps_content {ρ : Type} (dflt : ρ) (chunks : List (MChunk ρ))
    (minChars maxChars : Nat) (c₀ : MChunk ρ) (h₀ : c₀ ∈ chunks)
    (hnb : MergeNonBlank minChars c₀) :
    ∃ c ∈ merge_small_chunks dflt chunks minChars maxChars,
      appearsIn (mergeKey minChars c₀) c.content := by
  unfold merge_small_chunks
  by_cases hlen : chunks.length ≤ 1
  · rw [if_pos hlen]
    refine ⟨c₀, h₀, ?_⟩
    unfold mergeKey
    by_cases h : minChars ≤ c₀.content.length
    · rw [if_pos h]
      exact appearsIn_refl _
    · rw [if_neg h]
      exact appearsIn_strip_breadcrumb _
  · rw [if_neg hlen]
    obtain ⟨c, hc, hap⟩ := merge_core_keep h₀ hnb
    obtain ⟨c', hc', hcc⟩ := mem_reindexFrom_of_mem _ 0 hc
    exact ⟨c', hc', hcc ▸ hap⟩

/-- Witness for C3 at a concrete input: the stripped content of the
undersized fragment `"> Title\n\nHi."` survives the merge. -/
theorem merge_small_chunks_keeps_content_witness :
    ∃ c ∈ merge_small_chunks (0 : Nat)
        [⟨"> Title\n\nHi.".toList, ⟨some 0, 0⟩⟩, ⟨List.replicate 60 'c', ⟨some 1, 1⟩⟩] 50 2000,
      appearsIn (mergeKey 50 (⟨"> Title\n\nHi.".toList, ⟨some 0, 0⟩⟩ : MChunk Nat)) c.content :=
  merge_small_chunks_keeps_content (0 : Nat)
    [⟨"> Title\n\nHi.".toList, ⟨some 0, 0⟩⟩, ⟨List.replicate 60 'c', ⟨some 1, 1⟩⟩]
    50 2000 ⟨"> Title\n\nHi.".toList, ⟨some 0, 0⟩⟩ (by decide) (Or.inr (by decide))

/-- Counterexample to C3 as stated: a whitespace-only undersized fragment
is silently discarded by the merger, so its (breadcrumb-stripped) content
appears nowhere in the output. -/
theorem merge_small_chunks_discards_blank :
    ¬ ∀ c₀ ∈ [(⟨"   ".toList, ⟨some 0, 0⟩⟩ : MChunk Nat),
        ⟨List.replicate 50 'a', ⟨some 1, 1⟩⟩],
      ∃ c ∈ merge_small_chunks (0 : Nat)
          [(⟨"   ".toList, ⟨some 0, 0⟩⟩ : MChunk Nat),
            ⟨List.replicate 50 'a', ⟨some 1, 1⟩⟩] 50 2000,
        appearsIn (strip_breadcrumb c₀.content) c.content := by
  decide

/-! ### Re-indexing and metadata handling of the merger -/

/-- C6 (amended): for an input list of at least two chunks the merger
re-indexes every surviving fragment to its position `0..N-1`; an input
list of length at most one is returned unchanged (so its pre-existing
index survives).  (The original claim fails for singleton lists, see the
counterexample.) -/
theorem merge_small_chunks_reindexes {ρ : Type} (dflt : ρ) (chunks : List (MChunk ρ))
    (minChars maxChars : Nat) :
    (2 ≤ chunks.length →
      ∀ (i : Nat) (c : MChunk ρ),
        (merge_small_chunks dflt chunks minChars maxChars)[i]? = some c →
          c.metadata.index = some i)
    ∧ (chunks.length ≤ 1 → merge_small_chunks dflt chunks minChars maxChars = chunks) := by
  constructor
  · intro h2 i c h
    unfold merge_small_chunks at h
    rw [if_neg (by omega)] at h
    simpa using reindexFrom_idx _ 0 i c h
  · intro h1
    unfold merge_small_chunks
    rw [if_pos h1]

/-- Witness for C6 at a concrete two-chunk input: the merged output chunk
at position 0 carries index 0. -/
theorem merge_small_chunks_reindexes_witness :
    (⟨"Hi.".toList ++ blankSep ++ List.replicate 60 'c',
        ⟨some 0, 1⟩⟩ : MChunk Nat).metadata.index = some 0 :=
  (merge_small_chunks_reindexes (0 : Nat)
      [⟨"Hi.".toList, ⟨some 5, 0⟩⟩, ⟨List.replicate 60 'c', ⟨some 9, 1⟩⟩]
      50 2000).1 (by decide) 0
    ⟨"Hi.".toList ++ blankSep ++ List.replicate 60 'c', ⟨some 0, 1⟩⟩ (by decide)

/-- Counterexample to C6 as stated: a singleton input list is returned by
the early `len(chunks) <= 1` exit without re-indexing, so a stale index 7
survives at position 0. -/
theorem merge_small_chunks_no_reindex_single :
    ¬ ∀ (i : Nat) (c : MChunk Nat),
        (merge_small_chunks (0 : Nat) [⟨['x'], ⟨some 7, 0⟩⟩] 50 2000)[i]? = some c →
          c.metadata.index = some i := by
  intro h
  exact absurd (h 0 ⟨['x'], ⟨some 7, 0⟩⟩ (by decide)) (by decide)

/-- C10: metadata handling of the merge loop.  (a) When a pending
accumulator is prepended to a normal-sized chunk within `maxChars`, the
emitted chunk keeps that chunk's own metadata unchanged and only the
content gains the accumulated text in front.  (b) A small chunk starting a
fresh accumulator installs a copy of its metadata as the accumulator
metadata.  (c) A small chunk accumulated into an existing accumulator
leaves the accumulator metadata (the starter's) in place, dropping its own.
(d) An accumulator flushed standalone is emitted with the stored
accumulator metadata (the first undersized fragment's). -/
theorem merge_step_metadata {ρ : Type} (dflt : ρ) (minChars maxChars : Nat)
    (st : MergeState ρ) (x : MChunk ρ) :
    (minChars ≤ x.content.length → 0 < st.accContent.length →
      st.accContent.length + 2 + x.content.length ≤ maxChars →
      merge_step dflt minChars maxChars st x =
        ⟨st.result ++ [⟨st.accContent ++ blankSep ++ x.content, x.metadata⟩], [], none⟩)
    ∧ (x.content.length < minChars → pyStrip (strip_breadcrumb x.content) ≠ [] →
      st.accContent.length = 0 →
      merge_step dflt minChars maxChars st x =
        ⟨st.result, strip_breadcrumb x.content, some x.metadata⟩)
    ∧ (x.content.length < minChars → pyStrip (strip_breadcrumb x.content) ≠ [] →
      0 < st.accContent.length →
      st.accContent.length + 2 + (strip_breadcrumb x.content).length ≤ maxChars →
      merge_step dflt minChars maxChars st x =
        acc_check dflt minChars
          ⟨st.result, st.accContent ++ blankSep ++ strip_breadcrumb x.content, st.accMeta⟩)
    ∧ (∀ (res : List (MChunk ρ)) (acc : List Char) (am : Option (MergeMeta ρ)),
      acc.length < minChars → (res = [] ∨ maxChars < lastLen res + 2 + acc.length) →
      flush_acc dflt minChars maxChars res acc am = res ++ [⟨acc, orDefault dflt am⟩]) := by
  refine ⟨?_, ?_, ?_, ?_⟩
  · intro h1 h2 h3
    unfold merge_step
    rw [if_pos h1, if_pos h2, if_pos h3]
  · intro h1 h2 h3
    unfold merge_step
    rw [if_neg (by omega), if_neg h2, if_pos h3]
    unfold acc_check
    rw [if_neg (by
      have := strip_breadcrumb_length_le x.content
      simp only [not_le]
      omega)]
  · intro h1 h2 h3 h4
    unfold merge_step
    rw [if_neg (by omega), if_neg h2, if_neg (by omega), if_pos h4]
  · intro res acc am h1 h2
    unfold flush_acc
    rw [if_neg (by omega)]
    cases res with
    | nil => rw [if_pos (by simp)]
    | cons r rs =>
      rw [if_neg (by simp)]
      rcases h2 with h2 | h2
      · simp at h2
      · rw [if_neg (by omega)]

/-- Witness for C10: the four metadata-handling equations of
`merge_step_metadata` evaluated at concrete states and chunks. -/
theorem merge_step_metadata_witness :
    (merge_step (0 : Nat) 5 100 ⟨[], "ab".toList, some ⟨some 5, 7⟩⟩ ⟨"cdefg".toList, ⟨some 9, 3⟩⟩ =
      ⟨[⟨"ab".toList ++ blankSep ++ "cdefg".toList, ⟨some 9, 3⟩⟩], [], none⟩)
    ∧ (merge_step (0 : Nat) 5 100 ⟨[], [], none⟩ ⟨"hi".toList, ⟨some 4, 8⟩⟩ =
      ⟨[], strip_breadcrumb "hi".toList, some ⟨some 4, 8⟩⟩)
    ∧ (merge_step (0 : Nat) 10 100 ⟨[], "abc".toList, some ⟨some 1, 1⟩⟩ ⟨"hi".toList, ⟨some 2, 2⟩⟩ =
      acc_check (0 : Nat) 10
        ⟨[], "abc".toList ++ blankSep ++ strip_breadcrumb "hi".toList, some ⟨some 1, 1⟩⟩)
    ∧ (flush_acc (0 : Nat) 5 100 [] "abc".toList (some ⟨some 3, 3⟩) =
      [⟨"abc".toList, orDefault 0 (some ⟨some 3, 3⟩)⟩]) :=
  ⟨(merge_step_metadata (0 : Nat) 5 100 ⟨[], "ab".toList, some ⟨some 5, 7⟩⟩
      ⟨"cdefg".toList, ⟨some 9, 3⟩⟩).1 (by decide) (by decide) (by decide),
    (merge_step_metadata (0 : Nat) 5 100 ⟨[], [], none⟩
      ⟨"hi".toList, ⟨some 4, 8⟩⟩).2.1 (by decide) (by decide) (by decide),
    (merge_step_metadata (0 : Nat) 10 100 ⟨[], "abc".toList, some ⟨some 1, 1⟩⟩
      ⟨"hi".toList, ⟨some 2, 2⟩⟩).2.2.1 (by decide) (by decide) (by decide) (by decide),
    (merge_step_metadata (0 : Nat) 5 100 ⟨[], [], none⟩ ⟨[], ⟨none, 0⟩⟩).2.2.2
      [] "abc".toList (some ⟨some 3, 3⟩) (by decide) (Or.inl rfl)⟩

/-!
## Presentation chunker
(`apps/ai-worker/src/chunkers/presentation_chunker.py`)
-/

/-- Python `text.split(sep)` for a nonempty separator, with structural
fuel (the wrapper supplies enough fuel). -/
def splitSepFuel (sep : List Char) : Nat → List Char → List (List Char)
  | 0, s => [s]
  | fuel + 1, s =>
    if beginsWith sep s then
      [] :: splitSepFuel sep fuel (s.drop sep.length)
    else
      match s with
      | [] => [[]]
      | c :: rest =>
        match splitSepFuel sep fuel rest with
        | [] => [[c]]
        | l :: ls => (c :: l) :: ls

/-- Python `text.split(sep)`; `none` models the `ValueError: empty
separator` raised when `sep` is the empty string. -/
def py_split (sep s : List Char) : Option (List (List Char)) :=
  if sep.isEmpty then none
  else some (splitSepFuel sep (s.length + 1) s)

/-- One attempt of the regex `^#\s+(.+)$` (MULTILINE) at a line start:
`#`, at least one whitespace (which may cross line breaks), then a
nonempty remainder of a line, whose stripped text is the title group. -/
def tryTitle : List Char → Option (List Char)
  | '#' :: t2 =>
    let run := t2.takeWhile isPySpace
    if run.isEmpty then none
    else
      let rem := t2.drop run.length
      if rem.isEmpty then
        -- backtracking inside the whitespace run: a non-newline
        -- whitespace character can still satisfy `(.+)$`, the stripped
        -- group is then empty
        if (run.drop 1).any (fun c => c ≠ '\n') then some [] else none
      else some (pyStrip (rem.takeWhile (fun c => c ≠ '\n')))
  | _ => none

/-- Scanner for `re.search(r"^#\s+(.+)$", text, re.MULTILINE)`: try each
line start in order. -/
def titleScan : Nat → List Char → Option (List Char)
  | 0, _ => none
  | fuel + 1, t =>
    match tryTitle t with
    | some g => some g
    | none =>
      match t.dropWhile (fun c => c ≠ '\n') with
      | [] => none
      | _ :: rest => titleScan fuel rest

/-- Models `PresentationChunker._extract_title`. -/
def extract_title (s : List Char) : Option (List Char) :=
  titleScan (s.length + 1) s

/-- Python truthiness of an optional string (`bool(title)`). -/
def pyTruthyStr : Option (List Char) → Bool
  | some (_ :: _) => true
  | _ => false

/-- The `metadata["location"]` dict of a presentation chunk. -/
structure PLocation where
  slide_number : Option Nat
  slide_numbers : List Nat
  deriving DecidableEq, Repr

/-- The metadata dict built by `PresentationChunker._create_chunk`. -/
structure PMeta where
  location : PLocation
  chunk_type : String
  hasTitle : Bool
  title : Option (List Char)
  charStart : Nat
  charEnd : Nat
  deriving DecidableEq, Repr

/-- A presentation chunk dict. -/
structure PChunk where
  content : List Char
  metadata : PMeta
  deriving DecidableEq, Repr

/-- Python `"\n\n".join(contents)`. -/
def joinBlank : List (List Char) → List Char
  | [] => []
  | [l] => l
  | l :: ls => l ++ blankSep ++ joinBlank ls

/-- Models `PresentationChunker._create_chunk`. -/
def create_chunk (contents : List (List Char)) (indices : List Nat)
    (char_start : Nat) : PChunk :=
  let combined := joinBlank contents
  let title := extract_title combined
  let loc0 : PLocation :=
    ⟨if indices.length = 1 then some (indices.headD 0) else none,
      if 1 < indices.length then indices else [indices.headD 0]⟩
  -- backward compatibility: slide_number is set even for grouped slides
  let loc := if 1 < indices.length then
    { loc0 with slide_number := some (indices.headD 0) } else loc0
  ⟨combined,
    ⟨loc, "presentation", pyTruthyStr title, title, char_start,
      char_start + combined.length⟩⟩

/-- The slide loop of `PresentationChunker.chunk`, carrying the 0-based
slide position, the running character position and the current
accumulation. -/
def chunkSlides (minSize : Nat) :
    List (List Char) → Nat → Nat → List (List Char) → List Nat → List PChunk
  | [], _, pos, acc, idxs =>
    if acc.isEmpty then [] else [create_chunk acc idxs pos]
  | s :: rest, i, pos, acc, idxs =>
    let content := pyStrip s
    if content.isEmpty then chunkSlides minSize rest (i + 1) pos acc idxs
    else
      let acc' := acc ++ [content]
      let idxs' := idxs ++ [i + 1]
      let total := (acc'.map List.length).sum
      if minSize ≤ total ∨ rest.isEmpty then
        let ch := create_chunk acc' idxs' pos
        ch :: chunkSlides minSize rest (i + 1) ch.metadata.charEnd [] []
      else chunkSlides minSize rest (i + 1) pos acc' idxs'

/-- The chunker object: `__init__` stores `min_chunk_size` and the slide
marker, which in the source is the empty string (`self.marker = ""`). -/
structure PresentationChunker where
  min_chunk_size : Nat
  marker : List Char
  deriving Repr

/-- Models `PresentationChunker.__init__`. -/
def mkPresentationChunker (min_chunk_size : Nat) : PresentationChunker :=
  ⟨min_chunk_size, "".toList⟩

/-- Constant `SLIDE_MARKER` from `converters/pptx_converter.py`, the marker the
repository's converters emit and its tests split on. -/
def SLIDE_MARKER : List Char := "<!-- slide -->".toList

/-- Models `PresentationChunker.chunk`; `none` models the `ValueError` raised by
`text.split` on an empty separator. -/
def PresentationChunker.chunk (c : PresentationChunker) (text : List Char) :
    Option (List PChunk) :=
  if (pyStrip text).isEmpty then some []
  else
    match py_split c.marker text with
    | none => none
    | some rawSlides => some (chunkSlides c.min_chunk_size rawSlides 0 0 [] [])

/-- C1: the chunker constructed by `__init__` has `marker = ""`, so
`chunk("S1<!-- slide -->S2")` raises `ValueError: empty separator`
(modelled as `none`); with the repository's slide marker `SLIDE_MARKER`
(`"<!-- slide -->"`, used by the converters and asserted by the
repository's own tests) the claimed behaviour holds: exactly two
fragments `"S1"` and `"S2"` with slide numbers 1 and 2. -/
theorem presentation_chunk_scenario :
    (mkPresentationChunker 0).chunk "S1<!-- slide -->S2".toList = none
    ∧ PresentationChunker.chunk ⟨0, SLIDE_MARKER⟩ "S1<!-- slide -->S2".toList =
      some [⟨"S1".toList, ⟨⟨some 1, [1]⟩, "presentation", false, none, 0, 2⟩⟩,
        ⟨"S2".toList, ⟨⟨some 2, [2]⟩, "presentation", false, none, 2, 4⟩⟩] := by
  constructor
  · rfl
  · decide

/-!
## Quality analyzer (`apps/ai-worker/src/quality/analyzer.py`)

Python floats are modelled as exact rationals; `round(x, 2)` is Python's
round-half-to-even at two decimal places.
-/

/-- The `QualityFlag` enumeration. -/
inductive QualityFlag where
  | TOO_SHORT
  | TOO_LONG
  | NO_CONTEXT
  | FRAGMENT
  | EMPTY
  deriving DecidableEq, Repr

/-- The `QualityAnalyzer.__init__` thresholds. -/
structure QAnalyzer where
  min_chars : Nat
  max_chars : Nat
  ideal_length : Nat
  penalty_per_flag : ℚ

/-- The part of a chunk dict read by `analyze`: the content and the
`metadata.get("breadcrumbs", [])` list. -/
structure QAChunk where
  content : List Char
  breadcrumbs : List (List Char)

/-- The dict returned by `analyze`. -/
structure QAResult where
  flags : List QualityFlag
  score : ℚ
  char_count : Nat
  has_title : Bool
  completeness : String

/-- Round half to even (Python `round` tie-breaking) of a rational to an
integer. -/
def roundHalfEven (q : ℚ) : ℤ :=
  if q - ⌊q⌋ < 1/2 then ⌊q⌋
  else if 1/2 < q - ⌊q⌋ then ⌊q⌋ + 1
  else if Even ⌊q⌋ then ⌊q⌋ else ⌊q⌋ + 1

/-- Python `round(x, 2)`. -/
def round2 (q : ℚ) : ℚ := (roundHalfEven (100 * q) : ℚ) / 100

/-- Membership of a single character in the tuple
`(".", "!", "?", ":", "```", ">")`; the three-character entry can never
equal a one-character string and is dead in the source too. -/
def isSentenceEnder (c : Char) : Bool :=
  c = '.' ∨ c = '!' ∨ c = '?' ∨ c = ':' ∨ c = '>'

/-- Python `s.endswith("```")`. -/
def endsWithFence (s : List Char) : Bool :=
  beginsWith "```".toList.reverse s.reverse

/-- Local `has_title` of `analyze`: `stripped.startswith("#") or
stripped.startswith(">")`. -/
def qa_has_title (stripped : List Char) : Bool :=
  stripped.head? = some '#' ∨ stripped.head? = some '>'

/-- Local `ends_properly` of `analyze`: the last character of the
right-stripped text is a sentence ender, or the text ends with a fence. -/
def qa_ends_properly (stripped : List Char) : Bool :=
  (match (pyRstrip stripped).getLast? with
    | some c => isSentenceEnder c
    | none => false) || endsWithFence stripped

/-- The `flags` list built by `analyze` in source order in the non-empty
case. -/
def qa_flags (a : QAnalyzer) (stripped : List Char)
    (breadcrumbs : List (List Char)) : List QualityFlag :=
  (if stripped.length < a.min_chars then [QualityFlag.TOO_SHORT] else []) ++
  (if a.max_chars < stripped.length then [QualityFlag.TOO_LONG] else []) ++
  (if ¬ qa_has_title stripped ∧ ¬ 0 < breadcrumbs.length then
    [QualityFlag.NO_CONTEXT] else []) ++
  (if ¬ qa_ends_properly stripped then [QualityFlag.FRAGMENT] else [])

/-- The weighted score of `analyze` before rounding. -/
def qa_score (a : QAnalyzer) (stripped : List Char)
    (breadcrumbs : List (List Char)) : ℚ :=
  let base_quality : ℚ :=
    max 0 (1 - a.penalty_per_flag * (qa_flags a stripped breadcrumbs).length)
  let length_score : ℚ := min 1 ((stripped.length : ℚ) / (a.ideal_length : ℚ))
  let context_score : ℚ :=
    if qa_has_title stripped ∨ 0 < breadcrumbs.length then 1 else 1/2
  let completeness_score : ℚ := if qa_ends_properly stripped then 1 else 7/10
  base_quality * (40/100) + length_score * (30/100) +
    context_score * (20/100) + completeness_score * (10/100)

/-- The `completeness` label of `analyze`. -/
def qa_completeness (a : QAnalyzer) (stripped : List Char)
    (breadcrumbs : List (List Char)) : String :=
  if QualityFlag.FRAGMENT ∈ qa_flags a stripped breadcrumbs then "partial"
  else if QualityFlag.EMPTY ∈ qa_flags a stripped breadcrumbs then "empty"
  else "complete"

/-- Models `QualityAnalyzer.analyze`. -/
def analyze (a : QAnalyzer) (chunk : QAChunk) : QAResult :=
  let stripped := pyStrip chunk.content
  if stripped.isEmpty then
    ⟨[QualityFlag.EMPTY], 0, 0, false, "empty"⟩
  else
    ⟨qa_flags a stripped chunk.breadcrumbs,
      round2 (qa_score a stripped chunk.breadcrumbs),
      stripped.length, qa_has_title stripped,
      qa_completeness a stripped chunk.breadcrumbs⟩

theorem roundHalfEven_nonneg {q : ℚ} (h : 0 ≤ q) : 0 ≤ roundHalfEven q := by
  have hf : (0 : ℤ) ≤ ⌊q⌋ := Int.floor_nonneg.mpr h
  unfold roundHalfEven
  split_ifs <;> omega

theorem roundHalfEven_le {q : ℚ} {N : ℤ} (h : q ≤ N) : roundHalfEven q ≤ N := by
  have hf : ⌊q⌋ ≤ N := by
    calc ⌊q⌋ ≤ ⌊(N : ℚ)⌋ := Int.floor_le_floor h
      _ = N := Int.floor_intCast N
  have hfle : (⌊q⌋ : ℚ) ≤ q := Int.floor_le q
  unfold roundHalfEven
  split_ifs with h1 h2 h3
  · exact hf
  · -- q - floor > 1/2, so floor < N
    have : (⌊q⌋ : ℚ) + 1/2 < q := by linarith
    have hlt : (⌊q⌋ : ℚ) < (N : ℚ) := by linarith
    have : ⌊q⌋ < N := by exact_mod_cast hlt
    omega
  · exact hf
  · -- the tie case: q = floor + 1/2 ≤ N, so floor < N
    have hq : q - ⌊q⌋ = 1/2 := le_antisymm (not_lt.mp h2) (not_lt.mp h1)
    have hlt : (⌊q⌋ : ℚ) < (N : ℚ) := by linarith
    have : ⌊q⌋ < N := by exact_mod_cast hlt
    omega

theorem round2_bounds {q : ℚ} (h0 : 0 ≤ q) (h1 : q ≤ 1) :
    0 ≤ round2 q ∧ round2 q ≤ 1 := by
  have hnn : (0 : ℤ) ≤ roundHalfEven (100 * q) :=
    roundHalfEven_nonneg (by linarith)
  have hle : roundHalfEven (100 * q) ≤ (100 : ℤ) :=
    roundHalfEven_le (by push_cast; linarith)
  unfold round2
  constructor
  · have : (0 : ℚ) ≤ (roundHalfEven (100 * q) : ℚ) := by exact_mod_cast hnn
    positivity
  · have : (roundHalfEven (100 * q) : ℚ) ≤ 100 := by exact_mod_cast hle
    linarith

theorem qa_score_bounds (a : QAnalyzer) (stripped : List Char)
    (breadcrumbs : List (List Char)) (hpen : 0 ≤ a.penalty_per_flag)
    (hideal : 0 < a.ideal_length) :
    0 ≤ qa_score a stripped breadcrumbs ∧ qa_score a stripped breadcrumbs ≤ 1 := by
  unfold qa_score
  set n := (qa_flags a stripped breadcrumbs).length with hn
  have hb0 : (0 : ℚ) ≤ max 0 (1 - a.penalty_per_flag * n) := le_max_left _ _
  have hb1 : max 0 (1 - a.penalty_per_flag * n) ≤ 1 := by
    apply max_le
    · norm_num
    · have : (0 : ℚ) ≤ a.penalty_per_flag * n :=
        mul_nonneg hpen (by positivity)
      linarith
  have hl0 : (0 : ℚ) ≤ min 1 ((stripped.length : ℚ) / (a.ideal_length : ℚ)) := by
    apply le_min
    · norm_num
    · positivity
  have hl1 : min 1 ((stripped.length : ℚ) / (a.ideal_length : ℚ)) ≤ 1 :=
    min_le_left _ _
  have hc : (if qa_has_title stripped ∨ 0 < breadcrumbs.length then (1 : ℚ) else 1/2)
      = 1 ∨ (if qa_has_title stripped ∨ 0 < breadcrumbs.length then (1 : ℚ) else 1/2)
      = 1/2 := by
    split_ifs <;> simp
  have hcomp : (if qa_ends_properly stripped then (1 : ℚ) else 7/10) = 1 ∨
      (if qa_ends_properly stripped then (1 : ℚ) else 7/10) = 7/10 := by
    split_ifs <;> simp
  rcases hc with hc | hc <;> rcases hcomp with hcomp | hcomp <;>
    rw [hc, hcomp] <;> constructor <;> nlinarith

theorem qa_flags_no_empty (a : QAnalyzer) (stripped : List Char)
    (breadcrumbs : List (List Char)) :
    QualityFlag.EMPTY ∉ qa_flags a stripped breadcrumbs := by
  unfold qa_flags
  intro h
  rcases List.mem_append.mp h with h | h
  · rcases List.mem_append.mp h with h | h
    · rcases List.mem_append.mp h with h | h <;> (split_ifs at h <;> simp_all)
    · split_ifs at h <;> simp_all
  · split_ifs at h <;> simp_all

/-- C7: for every fragment the analyzer returns a score in `[0, 1]`
(assuming the configured penalty is nonnegative and the ideal length is
positive, as in every configuration the pipeline builds), and whenever the
`EMPTY` flag is set the score is exactly 0 and the completeness label is
`"empty"`. -/
theorem analyze_score_bounds (a : QAnalyzer) (chunk : QAChunk)
    (hpen : 0 ≤ a.penalty_per_flag) (hideal : 0 < a.ideal_length) :
    (0 ≤ (analyze a chunk).score ∧ (analyze a chunk).score ≤ 1)
    ∧ (QualityFlag.EMPTY ∈ (analyze a chunk).flags →
      (analyze a chunk).score = 0 ∧ (analyze a chunk).completeness = "empty") := by
  unfold analyze
  by_cases hstr : (pyStrip chunk.content).isEmpty
  · rw [if_pos hstr]
    refine ⟨⟨le_refl 0, by norm_num⟩, fun _ => ⟨rfl, rfl⟩⟩
  · rw [if_neg hstr]
    have hsb := qa_score_bounds a (pyStrip chunk.content) chunk.breadcrumbs hpen hideal
    have hrb := round2_bounds hsb.1 hsb.2
    exact ⟨hrb, fun h => absurd h (qa_flags_no_empty a _ _)⟩

/-- Witness for C7 applied at the default configuration and the fragment
`{content: "Hi.", breadcrumbs: []}`. -/
theorem analyze_score_bounds_witness :
    (0 ≤ (analyze ⟨50, 2000, 1000, 15/100⟩ ⟨"Hi.".toList, []⟩).score ∧
      (analyze ⟨50, 2000, 1000, 15/100⟩ ⟨"Hi.".toList, []⟩).score ≤ 1)
    ∧ (QualityFlag.EMPTY ∈ (analyze ⟨50, 2000, 1000, 15/100⟩ ⟨"Hi.".toList, []⟩).flags →
      (analyze ⟨50, 2000, 1000, 15/100⟩ ⟨"Hi.".toList, []⟩).score = 0 ∧
        (analyze ⟨50, 2000, 1000, 15/100⟩ ⟨"Hi.".toList, []⟩).completeness = "empty") :=
  analyze_score_bounds ⟨50, 2000, 1000, 15/100⟩ ⟨"Hi.".toList, []⟩
    (by norm_num) (by norm_num)

/-- C8: with the default thresholds `minChars = 50`, `maxChars = 2000`,
`idealLength = 1000`, `penaltyPerFlag = 0.15`, analyzing
`{content: "Hi.", breadcrumbs: []}` yields exactly the flags
`[TOO_SHORT, NO_CONTEXT]` and the score `0.48`. -/
theorem analyze_scenario :
    analyze ⟨50, 2000, 1000, 15/100⟩ ⟨"Hi.".toList, []⟩ =
      ⟨[QualityFlag.TOO_SHORT, QualityFlag.NO_CONTEXT], 48/100, 3, false, "complete"⟩ := by
  have hstrip : pyStrip "Hi.".toList = "Hi.".toList := by decide
  have hflags : qa_flags ⟨50, 2000, 1000, 15/100⟩ "Hi.".toList [] =
      [QualityFlag.TOO_SHORT, QualityFlag.NO_CONTEXT] := by decide
  have hscore : qa_score ⟨50, 2000, 1000, 15/100⟩ "Hi.".toList [] = 4809/10000 := by
    unfold qa_score
    rw [hflags]
    rw [show ("Hi.".toList.length) = 3 from by decide]
    rw [if_neg (by decide), if_pos (by decide)]
    rw [max_eq_right (by norm_num), min_eq_right (by norm_num)]
    norm_num
  have hround : round2 (4809/10000) = 48/100 := by
    have hq : (100 : ℚ) * (4809/10000) = 4809/100 := by norm_num
    have hfl : ⌊(4809/100 : ℚ)⌋ = 48 := by
      rw [Int.floor_eq_iff]
      norm_num
    unfold round2 roundHalfEven
    rw [hq, hfl]
    rw [if_pos (by norm_num)]
    norm_num
  unfold analyze
  rw [if_neg (by decide)]
  rw [hstrip, hflags, hscore, hround]
  have hcompl : qa_completeness ⟨50, 2000, 1000, 15/100⟩ "Hi.".toList [] = "complete" := by
    decide
  rw [hcompl]
  have hht : qa_has_title "Hi.".toList = false := by decide
  rw [hht, show ("Hi.".toList.length) = 3 from by decide]

/-!
## Markdown normalizer (`apps/ai-worker/src/normalizer.py`)

Each regex of the source is hand-compiled to a deterministic scanner with
the same leftmost-match semantics.  Scanners that do not recurse
structurally take a fuel argument; the wrappers pass `length + 1`, which
always suffices because every step consumes at least one input character.
-/

/-- The fence string of three backticks. -/
def fenceStr : List Char := "```".toList

/-- Split at the first occurrence of a fence: `s = before ++ "```" ++
after` with `before` fence-free. -/
def splitFirstFence : List Char → Option (List Char × List Char)
  | [] => none
  | c :: rest =>
    if beginsWith fenceStr (c :: rest) then some ([], rest.drop 2)
    else (splitFirstFence rest).map (fun p => (c :: p.1, p.2))

/-- Split at the first occurrence of the character `ch`. -/
def splitAtChar (ch : Char) : List Char → Option (List Char × List Char)
  | [] => none
  | c :: rest =>
    if c = ch then some ([], rest)
    else (splitAtChar ch rest).map (fun p => (c :: p.1, p.2))

/-- The placeholder `__M_NORM_BLOCK_{i}__`. -/
def placeholder (i : Nat) : List Char :=
  "__M_NORM_BLOCK_".toList ++ (Nat.repr i).toList ++ "__".toList

/-- First match of the code-block regex `(```[^\n]*\n)(.*?)(```)`
(DOTALL): the match starts at the first fence; the opening line runs to
the first newline, the lazy interior to the next fence.  When one of the
parts is missing no later start position can match either, so the whole
search fails. -/
def findBlock (s : List Char) : Option (List Char × List Char × List Char) :=
  match splitFirstFence s with
  | none => none
  | some (before, t) =>
    match splitAtChar '\n' t with
    | none => none
    | some (info, u) =>
      match splitFirstFence u with
      | none => none
      | some (interior, v) =>
        some (before, fenceStr ++ info ++ '\n' :: (interior ++ fenceStr), v)

/-- The substitution loop of `_extract_code_blocks`. -/
def extractAux : Nat → List (List Char) → List Char → List Char × List (List Char)
  | 0, storage, s => (s, storage)
  | fuel + 1, storage, s =>
    match findBlock s with
    | none => (s, storage)
    | some (before, block, rest) =>
      let idx := storage.length
      let out := extractAux fuel (storage ++ [block]) rest
      (before ++ placeholder idx ++ out.1, out.2)

/-- Models `MarkdownNormalizer._extract_code_blocks`. -/
def extract_code_blocks (s : List Char) (storage : List (List Char)) :
    List Char × List (List Char) :=
  extractAux (s.length + 1) storage s

/-- Count of matches of `^\s*``` ` (MULTILINE): at each line start a
whitespace run (possibly crossing line breaks) followed by a fence. -/
def countFencesAux : Nat → Bool → List Char → Nat
  | 0, _, _ => 0
  | fuel + 1, lineStart, s =>
    match s with
    | [] => 0
    | c :: rest =>
      if lineStart then
        let run := s.takeWhile isPySpace
        let t := s.drop run.length
        if beginsWith fenceStr t then 1 + countFencesAux fuel false (t.drop 3)
        else countFencesAux fuel (c = '\n') rest
      else countFencesAux fuel (c = '\n') rest

/-- Models `MarkdownNormalizer._fix_unclosed_code_blocks`. -/
def fix_unclosed_code_blocks (s : List Char) : List Char :=
  if countFencesAux (s.length + 1) true s % 2 = 1 then
    (if s.getLast? = some '\n' then s else s ++ ['\n']) ++ fenceStr
  else s

/-- The bullet substitution `^(\s*)([*+])(\s)` → `\1-\3` (MULTILINE):
at a line start, a whitespace run, a `*` or `+`, and one following
whitespace character; the bullet is replaced by `-`. -/
def bulletAux : Nat → Bool → List Char → List Char
  | 0, _, s => s
  | fuel + 1, lineStart, s =>
    match s with
    | [] => []
    | c :: rest =>
      if lineStart then
        let run := s.takeWhile isPySpace
        match s.drop run.length with
        | b :: w :: rest2 =>
          if (b = '*' ∨ b = '+') ∧ isPySpace w then
            run ++ '-' :: w :: bulletAux fuel (w = '\n') rest2
          else c :: bulletAux fuel (c = '\n') rest
        | _ => c :: bulletAux fuel (c = '\n') rest
      else c :: bulletAux fuel (c = '\n') rest

/-- The bullet pass of `normalize`. -/
def standardize_bullets (s : List Char) : List Char :=
  bulletAux (s.length + 1) true s

/-- The collapse `\n{3,}` → `\n\n`: every newline after two consecutive
newlines is dropped. -/
def collapseNLAux (run : Nat) : List Char → List Char
  | [] => []
  | c :: rest =>
    if c = '\n' then
      if 2 ≤ run then collapseNLAux run rest
      else '\n' :: collapseNLAux (run + 1) rest
    else c :: collapseNLAux 0 rest

/-- The blank-line collapse pass of `normalize`. -/
def collapse_blank_lines (s : List Char) : List Char := collapseNLAux 0 s

/-- One match attempt of the empty-section regex
`^(#{1,6})[ \t]+[^\n]+\n+(?=\1(?!#)\s+)` at a line start; on success
returns the rest of the input from the lookahead position. -/
def tryEmptySection (s : List Char) : Option (List Char) :=
  let hs := s.takeWhile (fun c => c = '#')
  if 1 ≤ hs.length ∧ hs.length ≤ 6 then
    let t := s.drop hs.length
    let sp := t.takeWhile (fun c => c = ' ' ∨ c = '\t')
    if sp.isEmpty then none
    else
      let u := t.drop sp.length
      let body := u.takeWhile (fun c => c ≠ '\n')
      if body.isEmpty then none
      else
        let v := u.drop body.length
        let nls := v.takeWhile (fun c => c = '\n')
        if nls.isEmpty then none
        else
          let w := v.drop nls.length
          if beginsWith hs w then
            match w.drop hs.length with
            | c :: _ => if c ≠ '#' ∧ isPySpace c then some w else none
            | [] => none
          else none
  else none

/-- One global substitution pass of the empty-section regex. -/
def emptySecAux : Nat → Bool → List Char → List Char
  | 0, _, s => s
  | fuel + 1, lineStart, s =>
    match s with
    | [] => []
    | c :: rest =>
      if lineStart then
        match tryEmptySection s with
        | some w => emptySecAux fuel true w
        | none => c :: emptySecAux fuel (c = '\n') rest
      else c :: emptySecAux fuel (c = '\n') rest

/-- One application of `_EMPTY_SECTION_PATTERN.sub("", text)`. -/
def emptySecPass (s : List Char) : List Char :=
  emptySecAux (s.length + 1) true s

/-- The bounded fixed-point loop of `_remove_empty_sections` (at most ten
substitution passes, stopping early once a pass changes nothing). -/
def removeEmptySectionsAux : Nat → List Char → List Char
  | 0, s => s
  | k + 1, s =>
    let s' := emptySecPass s
    if s' = s then s else removeEmptySectionsAux k s'

/-- Models `MarkdownNormalizer._remove_empty_sections`. -/
def remove_empty_sections (s : List Char) : List Char :=
  removeEmptySectionsAux 10 s

/-- Python `s.replace(pat, rep)` for a nonempty `pat` (left-to-right,
non-overlapping, the replacement is not rescanned). -/
def replaceAllAux (pat rep : List Char) : Nat → List Char → List Char
  | 0, s => s
  | fuel + 1, s =>
    match s with
    | [] => []
    | c :: rest =>
      if beginsWith pat s then rep ++ replaceAllAux pat rep fuel (s.drop pat.length)
      else c :: replaceAllAux pat rep fuel rest

/-- Python `s.replace(pat, rep)`. -/
def py_replace (s pat rep : List Char) : List Char :=
  replaceAllAux pat rep (s.length + 1) s

/-- Models `MarkdownNormalizer._restore_code_blocks`. -/
def restoreAux : Nat → List (List Char) → List Char → List Char
  | _, [], s => s
  | i, b :: bs, s => restoreAux (i + 1) bs (py_replace s (placeholder i) b)

/-- Restore every stored block in index order. -/
def restore_code_blocks (storage : List (List Char)) (s : List Char) : List Char :=
  restoreAux 0 storage s

/-- Sequences `\r\n` and lone `\r` replaced by `\n` (step 0 of `normalize`). -/
def replaceCRLF : List Char → List Char
  | [] => []
  | '\r' :: '\n' :: rest => '\n' :: replaceCRLF rest
  | '\r' :: rest => '\n' :: replaceCRLF rest
  | c :: rest => c :: replaceCRLF rest

/-- Models `MarkdownNormalizer.normalize`. -/
def normalize (md : List Char) : List Char :=
  if md.isEmpty then []
  else
    let md1 := replaceCRLF md
    let ex1 := extract_code_blocks md1 []
    let md3 := fix_unclosed_code_blocks ex1.1
    let ex2 := if occursB fenceStr md3 then extract_code_blocks md3 ex1.2
      else (md3, ex1.2)
    let md5 := standardize_bullets ex2.1
    let md6 := collapse_blank_lines md5
    let md7 := remove_empty_sections md6
    let md8 := pyStrip md7 ++ ['\n']
    restore_code_blocks ex2.2 md8

/-- C4 fails on the code: `normalize` is not idempotent.  On the input
`"*"` the first pass appends the final newline after the bullet pass has
already run, so the second pass sees `"*\n"`, whose bullet now matches
`^(\s*)([*+])(\s)` and is rewritten to `"-\n"`. -/
theorem normalize_not_idempotent :
    normalize "*".toList = "*\n".toList
    ∧ normalize "*\n".toList = "-\n".toList
    ∧ normalize (normalize "*".toList) ≠ normalize "*".toList := by
  refine ⟨by decide, by decide, by decide⟩

/-- C5 fails on the code: the interior of a fenced code block is not
always preserved by `normalize`.  In `"# ```\nsecret\n```\n# b\ny"` the
extraction regex matches the fenced block `"```\nsecret\n```"`, but its
placeholder lands inside a heading line, which the empty-section pass then
deletes: the output is `"# b\ny\n"` and the interior `"secret"` is gone. -/
theorem normalize_destroys_code_block :
    (extract_code_blocks "# ```\nsecret\n```\n# b\ny".toList []).2 =
      ["```\nsecret\n```".toList]
    ∧ normalize "# ```\nsecret\n```\n# b\ny".toList = "# b\ny\n".toList
    ∧ ¬ appearsIn "secret".toList (normalize "# ```\nsecret\n```\n# b\ny".toList) := by
  refine ⟨by decide, by decide, by decide⟩

/-!
## Soft-linebreak repair (`MarkdownNormalizer.merge_soft_linebreaks`)
-/

/-- The `skip_patterns` alternatives, applied to the already left-stripped
next line (the leading `\s*` of the pattern is then vacuous): headings,
list items, numbered lists, blockquotes, tables. -/
def skipPat (t : List Char) : Bool :=
  (let hs := t.takeWhile (fun c => c = '#')
   decide (1 ≤ hs.length) && decide (hs.length ≤ 6) &&
     (match (t.drop hs.length).head? with
      | some c => isPySpace c
      | none => false)) ||
  (match t with
   | b :: w :: _ => (b = '-' ∨ b = '*' ∨ b = '+') && isPySpace w
   | _ => false) ||
  (let ds := t.takeWhile Char.isDigit
   !ds.isEmpty &&
     (match t.drop ds.length with
      | '.' :: w :: _ => isPySpace w
      | _ => false)) ||
  t.head? = some '>' || t.head? = some '|'

/-- Models `re.search(r"[.!?:]$", line)` on a right-stripped line. -/
def endsSentence (l : List Char) : Bool :=
  match l.getLast? with
  | some c => c = '.' ∨ c = '!' ∨ c = '?' ∨ c = ':'
  | none => false

/-- Models `re.match(r"[a-z]", line)` on a left-stripped line. -/
def lowerStart (l : List Char) : Bool :=
  match l.head? with
  | some c => 'a' ≤ c ∧ c ≤ 'z'
  | none => false

/-- Models `re.search(r"[\]\)]$", line)` on a right-stripped line. -/
def endsBracket (l : List Char) : Bool :=
  match l.getLast? with
  | some c => c = ']' ∨ c = ')'
  | none => false

/-- The while-loop over lines of `merge_soft_linebreaks`: a blank next
line triggers the three-line PDF-artifact lookahead, a markdown-prefixed
or blank current line keeps the break, and a lowercase continuation after
a non-bracket line ending is merged with a single space. -/
def mslAux : Nat → List (List Char) → List (List Char)
  | 0, lines => lines
  | fuel + 1, lines =>
    match lines with
    | [] => []
    | [l] => [l]
    | l1 :: l2 :: rest =>
      let ns := pyLstrip l2
      let cs := pyRstrip l1
      if ns.isEmpty then
        match rest with
        | l3 :: rest' =>
          if ¬ cs.isEmpty then
            let ae := pyLstrip l3
            if ¬ endsSentence cs ∧ lowerStart ae ∧ ¬ endsBracket cs then
              mslAux fuel ((cs ++ ' ' :: ae) :: rest')
            else l1 :: mslAux fuel (l2 :: rest)
          else l1 :: mslAux fuel (l2 :: rest)
        | [] => l1 :: mslAux fuel (l2 :: rest)
      else if skipPat ns then l1 :: mslAux fuel (l2 :: rest)
      else if cs.isEmpty then l1 :: mslAux fuel (l2 :: rest)
      else if lowerStart ns ∧ ¬ endsBracket cs then
        mslAux fuel ((cs ++ ' ' :: ns) :: rest)
      else l1 :: mslAux fuel (l2 :: rest)

/-- Models `MarkdownNormalizer.merge_soft_linebreaks`. -/
def merge_soft_linebreaks (md : List Char) : List Char :=
  if md.isEmpty then []
  else
    let ex := extract_code_blocks md []
    let lines := splitLinesNL ex.1
    restore_code_blocks ex.2 (joinNL (mslAux (lines.length + 1) lines))

theorem appearsIn_cons {n : List Char} {c : Char} {rest : List Char}
    (h : appearsIn n rest) : appearsIn n (c :: rest) := by
  obtain ⟨pre, post, rfl⟩ := h
  exact ⟨c :: pre, post, rfl⟩

theorem splitFirstFence_eq_none {s : List Char} (h : ¬ appearsIn fenceStr s) :
    splitFirstFence s = none := by
  induction s with
  | nil => rfl
  | cons c rest ih =>
    have hnb : ¬ beginsWith fenceStr (c :: rest) = true := by
      intro hbw
      obtain ⟨t, ht⟩ := (beginsWith_iff _ _).mp hbw
      exact h ⟨[], t, by simpa using ht⟩
    have hrest : ¬ appearsIn fenceStr rest := fun hap => h (appearsIn_cons hap)
    unfold splitFirstFence
    rw [if_neg hnb, ih hrest]
    rfl

theorem extract_code_blocks_noop {s : List Char} (h : ¬ appearsIn fenceStr s) :
    extract_code_blocks s [] = (s, []) := by
  have hfb : findBlock s = none := by
    unfold findBlock
    rw [splitFirstFence_eq_none h]
  unfold extract_code_blocks
  simp only [extractAux, hfb]

theorem splitLinesNL_no_nl {l : List Char} (h : '\n' ∉ l) : splitLinesNL l = [l] := by
  induction l with
  | nil => rfl
  | cons c rest ih =>
    have hc : c ≠ '\n' := fun he => h (he ▸ List.mem_cons_self c rest)
    have hr : '\n' ∉ rest := fun he => h (List.mem_cons_of_mem c he)
    unfold splitLinesNL
    rw [if_neg hc, ih hr]

theorem splitLinesNL_pair {l1 l2 : List Char} (h1 : '\n' ∉ l1) (h2 : '\n' ∉ l2) :
    splitLinesNL (l1 ++ '\n' :: l2) = [l1, l2] := by
  induction l1 with
  | nil => simp [splitLinesNL, splitLinesNL_no_nl h2]
  | cons c rest ih =>
    have hc : c ≠ '\n' := fun he => h1 (he ▸ List.mem_cons_self c rest)
    have hr : '\n' ∉ rest := fun he => h1 (List.mem_cons_of_mem c he)
    rw [List.cons_append]
    unfold splitLinesNL
    rw [if_neg hc, ih hr]

theorem lowerStart_not_skipPat {t : List Char} (h : lowerStart t = true) :
    skipPat t = false := by
  cases t with
  | nil => simp [lowerStart] at h
  | cons c rest =>
    have hc : 'a' ≤ c ∧ c ≤ 'z' := by
      simpa [lowerStart] using h
    have h1 : ¬ c = '#' := by rintro rfl; revert hc; decide
    have h2 : ¬ c = '-' := by rintro rfl; revert hc; decide
    have h3 : ¬ c = '*' := by rintro rfl; revert hc; decide
    have h4 : ¬ c = '+' := by rintro rfl; revert hc; decide
    have h5 : ¬ c = '>' := by rintro rfl; revert hc; decide
    have h6 : ¬ c = '|' := by rintro rfl; revert hc; decide
    have hval : (97 : UInt32) ≤ c.val := hc.1
    have h7 : c.isDigit = false := by
      have h9 : ¬ c ≤ '9' := by
        intro hle
        exact absurd (le_trans hc.1 hle) (by decide)
      simp only [Char.isDigit, Bool.and_eq_false_iff]
      right
      simpa using h9
    have hhs : (c :: rest).takeWhile (fun x => x = '#') = [] := by
      simp [List.takeWhile_cons, h1]
    have hds : (c :: rest).takeWhile Char.isDigit = [] := by
      simp [List.takeWhile_cons, h7]
    unfold skipPat
    rw [hhs, hds]
    simp only [List.length_nil, List.isEmpty_nil, List.drop_zero, List.head?_cons,
      Bool.or_eq_false_iff]
    refine ⟨⟨⟨⟨by simp, ?_⟩, by simp⟩, by simp [h5]⟩, by simp [h6]⟩
    cases rest with
    | nil => rfl
    | cons w r2 => simp [h2, h3, h4]

theorem mslAux_single (fuel : Nat) (l : List Char) : mslAux fuel [l] = [l] := by
  cases fuel <;> rfl

theorem mslAux_pair (fuel : Nat) (l1 l2 : List Char) :
    mslAux (fuel + 1) (l1 :: l2 :: []) =
      if (pyLstrip l2).isEmpty then [l1, l2]
      else if skipPat (pyLstrip l2) then [l1, l2]
      else if (pyRstrip l1).isEmpty then [l1, l2]
      else if lowerStart (pyLstrip l2) ∧ ¬ endsBracket (pyRstrip l1) then
        [pyRstrip l1 ++ ' ' :: pyLstrip l2]
      else [l1, l2] := by
  simp only [mslAux]
  by_cases hns : (pyLstrip l2).isEmpty
  · rw [if_pos hns, if_pos hns, mslAux_single]
  · rw [if_neg hns, if_neg hns]
    by_cases hskip : skipPat (pyLstrip l2)
    · rw [if_pos hskip, if_pos hskip, mslAux_single]
    · rw [if_neg hskip, if_neg hskip]
      by_cases hcs : (pyRstrip l1).isEmpty
      · rw [if_pos hcs, if_pos hcs, mslAux_single]
      · rw [if_neg hcs, if_neg hcs]
        by_cases hlb : lowerStart (pyLstrip l2) ∧ ¬ endsBracket (pyRstrip l1)
        · rw [if_pos hlb, if_pos hlb, mslAux_single]
        · rw [if_neg hlb, if_neg hlb, mslAux_single]

/-- C9 (amended): for a pair of adjacent lines outside fenced code blocks
the two lines are joined with a single space iff the next line starts
(after leading whitespace) with a lowercase ASCII letter, the current line
is not blank, and the current line ignoring trailing whitespace does not
end with `]` or `)`.  (Lines prefixed by heading/list/blockquote/table
markers never start with a lowercase letter, so they are never merge
targets; the original claim omitted the blank-current-line exception, see
the counterexample.) -/
theorem merge_soft_linebreaks_pair (l1 l2 : List Char)
    (h1 : '\n' ∉ l1) (h2 : '\n' ∉ l2)
    (hnf : ¬ appearsIn fenceStr (l1 ++ '\n' :: l2)) :
    merge_soft_linebreaks (l1 ++ '\n' :: l2) =
      if lowerStart (pyLstrip l2) = true ∧ (pyRstrip l1).isEmpty = false ∧
          endsBracket (pyRstrip l1) = false then
        pyRstrip l1 ++ ' ' :: pyLstrip l2
      else l1 ++ '\n' :: l2 := by
  have hne : ¬ (l1 ++ '\n' :: l2).isEmpty = true := by simp
  have hjoin : joinNL [l1, l2] = l1 ++ '\n' :: l2 := by
    rw [joinNL_cons _ _ (by simp)]
    rfl
  unfold merge_soft_linebreaks
  rw [if_neg hne]
  simp only [extract_code_blocks_noop hnf, splitLinesNL_pair h1 h2]
  rw [show ([l1, l2].length + 1) = (1 + 1 : Nat) + 1 from by simp]
  rw [mslAux_pair]
  unfold restore_code_blocks
  simp only [restoreAux]
  by_cases hns : (pyLstrip l2).isEmpty = true
  · have hlowf : lowerStart (pyLstrip l2) = false := by
      have hnil : pyLstrip l2 = [] := by simpa using hns
      rw [hnil]
      rfl
    rw [if_pos hns, hjoin, if_neg (by simp [hlowf])]
  · rw [if_neg hns]
    by_cases hskip : skipPat (pyLstrip l2) = true
    · have hlowf : lowerStart (pyLstrip l2) = false := by
        by_contra hc
        rw [Bool.not_eq_false] at hc
        rw [lowerStart_not_skipPat hc] at hskip
        exact absurd hskip (by simp)
      rw [if_pos hskip, hjoin, if_neg (by simp [hlowf])]
    · rw [if_neg hskip]
      by_cases hcs : (pyRstrip l1).isEmpty = true
      · rw [if_pos hcs, hjoin, if_neg (by simp [hcs])]
      · rw [if_neg hcs]
        by_cases hlb : lowerStart (pyLstrip l2) = true ∧ ¬ endsBracket (pyRstrip l1) = true
        · rw [if_pos hlb,
            show joinNL [pyRstrip l1 ++ ' ' :: pyLstrip l2] =
              pyRstrip l1 ++ ' ' :: pyLstrip l2 from rfl,
            if_pos ⟨hlb.1, by simpa using hcs, by simpa using hlb.2⟩]
        · rw [if_neg hlb, hjoin,
            if_neg (fun hcond => hlb ⟨hcond.1, by simp [hcond.2.2]⟩)]

/-- Witness for C9: the specification scenario, obtained from
`merge_soft_linebreaks_pair`: the lowercase continuation is merged. -/
theorem merge_soft_linebreaks_pair_witness :
    merge_soft_linebreaks "individuals and teams who\nmade this book possible.".toList =
      "individuals and teams who made this book possible.".toList := by
  have hsplit : "individuals and teams who\nmade this book possible.".toList =
      "individuals and teams who".toList ++ '\n' :: "made this book possible.".toList := by
    decide
  rw [hsplit, merge_soft_linebreaks_pair _ _ (by decide) (by decide) (by decide),
    if_pos (by refine ⟨by decide, by decide, by decide⟩)]
  decide

/-- Counterexample to C9 as stated: with a blank current line the pair
`("", "abc")` satisfies the stated merge condition (next line starts
lowercase, current line does not end with a bracket), yet the code keeps
the line break: the blank-current exception is missing from the claim. -/
theorem merge_soft_linebreaks_blank_current :
    merge_soft_linebreaks "\nabc".toList = "\nabc".toList
    ∧ lowerStart (pyLstrip "abc".toList) = true
    ∧ endsBracket (pyRstrip "".toList) = false
    ∧ merge_soft_linebreaks "\nabc".toList ≠
        pyRstrip "".toList ++ ' ' :: pyLstrip "abc".toList := by
  refine ⟨by decide, by decide, by decide, by decide⟩

end RAGBase
